import Mathlib

/-!
# Sparse Array Set — verification of `lib/data_structure/sparse_array_set.h`

Shallow embedding of the C++ class `sparse_array_set`: a fixed-capacity
backing array (`std::vector<int> elements`) plus two `int` cursors
`first` and `last` delimiting the active range `[first, last]`.

Each Lean definition mirrors the corresponding C++ member function.
C++ out-of-bounds accesses are undefined behaviour; in the embedding a
`List.set` out of range is a no-op and reads out of range return the
default `-1` (the vector fill value), so every theorem that needs
in-bounds behaviour carries the capacity hypotheses the C++ callers
must guarantee.
-/

structure sparse_array_set where
  elements : List Int
  first : Int
  last : Int
deriving DecidableEq, Repr

namespace sparse_array_set

/-- Constructor `sparse_array_set(unsigned int size)`:
`elements(size, -1), first(0), last(-1)`. -/
def create (size : Nat) : sparse_array_set :=
  ⟨List.replicate size (-1), 0, -1⟩

/-- Default constructor: empty backing vector, `first = 0`, `last = -1`. -/
def createDefault : sparse_array_set :=
  ⟨[], 0, -1⟩

/-- `std::vector::resize(size, -1)`: truncate to `size` elements, or pad
with `-1` up to `size` elements. -/
def resizeList (l : List Int) (size : Nat) : List Int :=
  if size ≤ l.length then l.take size
  else l ++ List.replicate (size - l.length) (-1)

/-- `void resize(unsigned int size) { elements.resize(size, -1); }` -/
def resize (s : sparse_array_set) (size : Nat) : sparse_array_set :=
  { s with elements := resizeList s.elements size }

/-- `void init(unsigned int size)`: resize the vector, `first = 0`,
`last = -1`. -/
def init (s : sparse_array_set) (size : Nat) : sparse_array_set :=
  { s with elements := resizeList s.elements size, first := 0, last := -1 }

/-- The active range: the slice `elements[first .. last]` that the
iterators `begin() = elements.begin() + first` and
`end() = elements.begin() + last + 1` traverse. -/
def activeList (s : sparse_array_set) : List Int :=
  (s.elements.drop s.first.toNat).take (s.last + 1 - s.first).toNat

/-- `bool contains(int x)`: linear scan of the active range. -/
def contains (s : sparse_array_set) (x : Int) : Bool :=
  (activeList s).any (fun v => v == x)

/-- `void insert(int x)`: if contained, no-op; else `last++` and
`elements[last] = x`. -/
def insert (s : sparse_array_set) (x : Int) : sparse_array_set :=
  if contains s x then s
  else { s with elements := s.elements.set (s.last + 1).toNat x,
                last := s.last + 1 }

/-- `void remove(int x)`: scan `elements[first..last]` for the first
index holding `x`; if found at `index`, set
`elements[index] = elements[last]; elements[last] = x; last--`.
The first matching physical index is `first + indexOf x (activeList s)`. -/
def remove (s : sparse_array_set) (x : Int) : sparse_array_set :=
  if contains s x then
    let index := s.first.toNat + (activeList s).indexOf x
    let lastVal := s.elements.getD s.last.toNat (-1)
    { s with elements := (s.elements.set index lastVal).set s.last.toNat x,
             last := s.last - 1 }
  else s

/-- `void move_to(int x, sparse_array_set &other)`:
`remove(x); other.insert(x);` — returns the pair (this, other). -/
def move_to (s : sparse_array_set) (x : Int) (other : sparse_array_set) :
    sparse_array_set × sparse_array_set :=
  (remove s x, insert other x)

/-- `unsigned int size() { return last - first + 1; }` — the `int`
expression cast to unsigned; modelled as `Int.toNat`, exact whenever
`0 ≤ last - first + 1`, which holds in every reachable state. -/
def size (s : sparse_array_set) : Nat :=
  (s.last - s.first + 1).toNat

/-- `bool empty() { return last < first; }` -/
def empty (s : sparse_array_set) : Bool :=
  decide (s.last < s.first)

/-- `void clear() { first = 0; last = -1; }` -/
def clear (s : sparse_array_set) : sparse_array_set :=
  { s with first := 0, last := -1 }

/-- `void init_from_adj(std::vector<std::vector<int>> &adj, int node)`:
`resize(adj.size())`, then insert each neighbor of `node` in order. -/
def init_from_adj (s : sparse_array_set) (adj : List (List Int))
    (node : Nat) : sparse_array_set :=
  (adj.getD node []).foldl insert (resize s adj.length)

/-- Folding `insert` over a list of values, as `init_from_adj` does and
as the round-trip scenario of the spec describes. -/
def insertAll (s : sparse_array_set) (vs : List Int) : sparse_array_set :=
  vs.foldl insert s

/-! ## Basic lemmas -/

theorem contains_iff {s : sparse_array_set} {x : Int} :
    contains s x = true ↔ x ∈ activeList s := by
  simp [contains, List.any_eq_true, beq_iff_eq]

theorem contains_false_iff {s : sparse_array_set} {x : Int} :
    contains s x = false ↔ x ∉ activeList s := by
  rw [← Bool.not_eq_true, not_iff_not]; exact contains_iff

theorem activeList_of_first_zero {s : sparse_array_set} (h : s.first = 0) :
    activeList s = s.elements.take (s.last + 1).toNat := by
  simp [activeList, h]

theorem insert_first (s : sparse_array_set) (x : Int) :
    (insert s x).first = s.first := by
  unfold insert; split <;> rfl

theorem insert_length (s : sparse_array_set) (x : Int) :
    (insert s x).elements.length = s.elements.length := by
  unfold insert; split <;> simp

/-- In-capacity `insert` of a fresh value appends it to the active range. -/
theorem insert_spec {s : sparse_array_set} {x : Int}
    (h1 : s.first = 0) (h2 : -1 ≤ s.last)
    (h3 : s.last + 1 < (s.elements.length : Int))
    (hx : contains s x = false) :
    activeList (insert s x) = activeList s ++ [x] ∧
    (insert s x).last = s.last + 1 := by
  obtain ⟨k, hk⟩ := Int.eq_ofNat_of_zero_le (by omega : (0:Int) ≤ s.last + 1)
  have hklen : k < s.elements.length := by
    have := h3; omega
  have htn : (s.last + 1).toNat = k := by omega
  have hins : insert s x =
      { s with elements := s.elements.set k x, last := s.last + 1 } := by
    simp [insert, hx, htn]
  refine ⟨?_, by rw [hins]⟩
  rw [hins, activeList_of_first_zero (s := { s with elements := s.elements.set k x, last := s.last + 1 }) h1,
      activeList_of_first_zero h1]
  have htn2 : (s.last + 1 + 1).toNat = k + 1 := by omega
  rw [htn, htn2]
  rw [← List.take_concat_get' _ k (by simpa using hklen)]
  congr 1
  · rw [List.set_take]
    exact List.set_eq_of_length_le (by simp)
  · simp

/-- The state after an in-capacity `insert`: unchanged when the value is
present, appended otherwise; in both cases the value is contained. -/
theorem insert_contains_self {s : sparse_array_set} {x : Int}
    (h1 : s.first = 0) (h2 : -1 ≤ s.last)
    (h3 : s.last + 1 < (s.elements.length : Int)) :
    contains (insert s x) x = true := by
  cases hc : contains s x with
  | true => simp [insert, hc]
  | false =>
      have h := (insert_spec h1 h2 h3 hc).1
      rw [contains_iff, h]
      simp

/-- Helper: removing the element at index `j` of `l` by overwriting it
with the final element and dropping the final slot permutes `l` into
`x` on top of the result. -/
theorem take_set_perm (l : List Int) (k : Nat) (x : Int) (hl : l.length = k + 1)
    (j : Nat) (hj : j < l.length) (hk : k < l.length) (hx : l[j] = x) :
    List.Perm l (x :: (l.take k).set j l[k]) := by
  have hsplit : l = l.take k ++ [l[k]] := by
    rw [List.take_concat_get' _ k hk]
    rw [List.take_of_length_le (by omega)]
  rcases Nat.lt_or_ge j k with hjk | hjk
  · have hts : l.take k = l.take j ++ x :: (l.take k).drop (j + 1) := by
      conv_lhs => rw [← List.take_append_drop j (l.take k)]
      congr 1
      · rw [List.take_take]; congr 1; omega
      · rw [List.drop_eq_getElem_cons (by simp; omega)]
        congr 1
        rw [List.getElem_take]
        exact hx
    have hsetd : (l.take k).set j l[k] =
        l.take j ++ l[k] :: (l.take k).drop (j + 1) := by
      rw [List.set_eq_take_append_cons_drop,
          if_pos (by simp; omega : j < (l.take k).length)]
      congr 1
      rw [List.take_take]; congr 1; omega
    rw [hsetd]
    conv_lhs => rw [hsplit]
    conv_lhs => rw [hts]
    simp [List.perm_iff_count, List.count_append, List.count_cons]
    intro a
    omega
  · have hjk2 : j = k := by omega
    rw [List.set_eq_of_length_le (by simp; omega)]
    conv_lhs => rw [hsplit]
    subst hjk2
    rw [hx]
    exact List.perm_append_singleton x _

/-- Core description of `remove` on a contained value: cursors and
length, and the old active range is a permutation of `x` on top of the
new one (swap-to-end removal). -/
theorem remove_spec {s : sparse_array_set} {x : Int}
    (h1 : s.first = 0) (h2 : s.last + 1 ≤ (s.elements.length : Int))
    (hx : contains s x = true) :
    (remove s x).first = 0 ∧ (remove s x).last = s.last - 1 ∧
    (remove s x).elements.length = s.elements.length ∧
    List.Perm (activeList s) (x :: activeList (remove s x)) := by
  have hmem : x ∈ activeList s := contains_iff.mp hx
  have hact : activeList s = s.elements.take (s.last + 1).toNat :=
    activeList_of_first_zero h1
  have hpos : 0 < s.last + 1 := by
    by_contra hcon
    have hz : (s.last + 1).toNat = 0 := by omega
    rw [hact, hz] at hmem
    simp at hmem
  obtain ⟨k, hk⟩ := Int.eq_ofNat_of_zero_le (by omega : (0:Int) ≤ s.last)
  have hklen : k + 1 ≤ s.elements.length := by
    have := h2; omega
  have htn : (s.last + 1).toNat = k + 1 := by omega
  have hlact : (activeList s).length = k + 1 := by
    rw [hact, htn]; simp; omega
  have hjlen : (activeList s).indexOf x < (activeList s).length :=
    List.indexOf_lt_length.2 hmem
  have hactj : (activeList s)[(activeList s).indexOf x] = x :=
    List.getElem_indexOf hjlen
  have hrfirst : (remove s x).first = s.first := by simp [remove, hx]
  have hrlast : (remove s x).last = s.last - 1 := by simp [remove, hx]
  have hrelem : (remove s x).elements =
      (s.elements.set ((activeList s).indexOf x)
        (s.elements.getD k (-1))).set k x := by
    simp [remove, hx, h1, show s.last.toNat = k from by omega]
  set j := (activeList s).indexOf x with hjdef
  have hklt : k < (activeList s).length := by omega
  have hktk : k < (s.elements.take (k + 1)).length := by simp; omega
  have hEk : s.elements.getD k (-1) = (activeList s)[k] := by
    rw [List.getD_eq_getElem _ _ (by omega)]
    have h3 : (activeList s)[k] = (s.elements.take (k + 1))[k] := by
      simp only [hact, htn]
    rw [h3, List.getElem_take]
  have hnew : activeList (remove s x) =
      ((activeList s).take k).set j (s.elements.getD k (-1)) := by
    rw [activeList_of_first_zero (h1 ▸ hrfirst), hrelem, hrlast]
    rw [show (s.last - 1 + 1).toNat = k from by omega]
    rw [List.set_take, List.set_eq_of_length_le (by simp),
        List.set_take]
    congr 1
    rw [hact, htn, List.take_take]
    congr 1
    omega
  refine ⟨h1 ▸ hrfirst, hrlast, by rw [hrelem]; simp, ?_⟩
  rw [hnew, hEk]
  exact take_set_perm (activeList s) k x hlact j hjlen hklt hactj

theorem insert_of_contains {s : sparse_array_set} {x : Int}
    (hx : contains s x = true) : insert s x = s := by
  simp [insert, hx]

theorem remove_of_not_contains {s : sparse_array_set} {x : Int}
    (hx : contains s x = false) : remove s x = s := by
  simp [remove, hx]

/-- After removing a contained value from a duplicate-free set, the
value is no longer contained. -/
theorem remove_not_contains {s : sparse_array_set} {x : Int}
    (h1 : s.first = 0) (h2 : s.last + 1 ≤ (s.elements.length : Int))
    (hnd : (activeList s).Nodup) (hx : contains s x = true) :
    contains (remove s x) x = false := by
  have hp := (remove_spec h1 h2 hx).2.2.2
  have hnd2 : (x :: activeList (remove s x)).Nodup := hp.nodup hnd
  rw [contains_false_iff]
  exact (List.nodup_cons.mp hnd2).1

/-- `remove` of a contained value shrinks the size by exactly one. -/
theorem remove_size {s : sparse_array_set} {x : Int}
    (h1 : s.first = 0) (h2 : s.last + 1 ≤ (s.elements.length : Int))
    (hx : contains s x = true) :
    size (remove s x) + 1 = size s := by
  have hsp := remove_spec h1 h2 hx
  have hmem : x ∈ activeList s := contains_iff.mp hx
  have hpos : 0 < s.last + 1 := by
    by_contra hcon
    have hz : (s.last + 1).toNat = 0 := by omega
    rw [activeList_of_first_zero h1, hz] at hmem
    simp at hmem
  rw [size, size, hsp.1, hsp.2.1, h1]
  omega

/-- `remove` preserves distinctness of the active range. -/
theorem remove_nodup {s : sparse_array_set} {x : Int}
    (h1 : s.first = 0) (h2 : s.last + 1 ≤ (s.elements.length : Int))
    (hnd : (activeList s).Nodup) :
    (activeList (remove s x)).Nodup := by
  cases hx : contains s x with
  | false => rw [remove_of_not_contains hx]; exact hnd
  | true =>
      have hp := (remove_spec h1 h2 hx).2.2.2
      exact (List.nodup_cons.mp (hp.nodup hnd)).2

/-! ## Folding `insert` over a list -/

theorem insertAll_first (vs : List Int) :
    ∀ s : sparse_array_set, (insertAll s vs).first = s.first := by
  induction vs with
  | nil => intro s; rfl
  | cons x xs ih =>
      intro s
      show (insertAll (insert s x) xs).first = s.first
      rw [ih (insert s x), insert_first]

/-- Induction workhorse: folding `insert` over `vs` within capacity
keeps the cursors well formed, adds exactly the members of `vs` to the
active range, and preserves distinctness. -/
theorem insertAll_spec (vs : List Int) :
    ∀ s : sparse_array_set, s.first = 0 → -1 ≤ s.last →
    s.last + 1 + vs.length ≤ (s.elements.length : Int) →
    (insertAll s vs).elements.length = s.elements.length ∧
    -1 ≤ (insertAll s vs).last ∧
    (insertAll s vs).last + 1 ≤ s.last + 1 + vs.length ∧
    (∀ v, v ∈ activeList (insertAll s vs) ↔ v ∈ activeList s ∨ v ∈ vs) ∧
    ((activeList s).Nodup → (activeList (insertAll s vs)).Nodup) := by
  induction vs with
  | nil =>
      intro s h1 h2 h3
      refine ⟨rfl, h2, by simp [insertAll], fun v => by simp [insertAll], fun h => h⟩
  | cons x xs ih =>
      intro s h1 h2 h3
      have hstep : insertAll s (x :: xs) = insertAll (insert s x) xs := rfl
      cases hc : contains s x with
      | true =>
          rw [hstep, insert_of_contains hc]
          rw [List.length_cons] at h3
          obtain ⟨hl, h2a, h3a, hmem, hnd⟩ := ih s h1 h2
            (by push_cast at h3 ⊢; omega)
          refine ⟨hl, h2a, ?_, fun v => ?_, hnd⟩
          · rw [List.length_cons]; push_cast at h3a ⊢; omega
          rw [hmem v]
          constructor
          · rintro (hv | hv)
            · exact Or.inl hv
            · exact Or.inr (List.mem_cons_of_mem x hv)
          · rintro (hv | hv)
            · exact Or.inl hv
            · rcases List.mem_cons.mp hv with rfl | hv
              · exact Or.inl (contains_iff.mp hc)
              · exact Or.inr hv
      | false =>
          rw [List.length_cons] at h3
          have h3x : s.last + 1 < (s.elements.length : Int) := by
            push_cast at h3; omega
          have hsp := insert_spec h1 h2 h3x hc
          have hfst : (insert s x).first = 0 := by rw [insert_first]; exact h1
          have hlen : (insert s x).elements.length = s.elements.length :=
            insert_length s x
          obtain ⟨hl, h2a, h3a, hmem, hnd⟩ := ih (insert s x) hfst
            (by rw [hsp.2]; omega)
            (by rw [hsp.2, hlen]; push_cast at h3 ⊢; omega)
          rw [hstep]
          refine ⟨by rw [hl, hlen], h2a, ?_, fun v => ?_, fun hnds => ?_⟩
          · rw [hsp.2] at h3a; rw [List.length_cons]; push_cast at h3a ⊢; omega
          · rw [hmem v, hsp.1]
            simp [List.mem_append]
            tauto
          · refine hnd ?_
            rw [hsp.1]
            simp [List.nodup_append]
            refine ⟨hnds, fun h => ?_⟩
            exact (contains_false_iff.mp hc) h

/-- Folding `insert` over fresh distinct values appends them verbatim. -/
theorem insertAll_fresh (vs : List Int) :
    ∀ s : sparse_array_set, s.first = 0 → -1 ≤ s.last →
    s.last + 1 + vs.length ≤ (s.elements.length : Int) →
    vs.Nodup → (∀ v ∈ vs, contains s v = false) →
    activeList (insertAll s vs) = activeList s ++ vs ∧
    (insertAll s vs).last = s.last + vs.length := by
  induction vs with
  | nil =>
      intro s h1 h2 h3 hnd hfresh
      exact ⟨by simp [insertAll], by simp [insertAll]⟩
  | cons x xs ih =>
      intro s h1 h2 h3 hnd hfresh
      have hstep : insertAll s (x :: xs) = insertAll (insert s x) xs := rfl
      rw [List.length_cons] at h3
      have h3x : s.last + 1 < (s.elements.length : Int) := by
        push_cast at h3; omega
      have hsp := insert_spec h1 h2 h3x (hfresh x (List.mem_cons_self x xs))
      have hfst : (insert s x).first = 0 := by rw [insert_first]; exact h1
      have hlen : (insert s x).elements.length = s.elements.length :=
        insert_length s x
      obtain ⟨hact, hlast⟩ := ih (insert s x) hfst
        (by rw [hsp.2]; omega)
        (by rw [hsp.2, hlen]; push_cast at h3 ⊢; omega)
        (List.Nodup.of_cons hnd)
        (by
          intro v hv
          rw [contains_false_iff, hsp.1]
          simp
          constructor
          · exact contains_false_iff.mp (hfresh v (List.mem_cons_of_mem x hv))
          · rintro rfl
            exact (List.nodup_cons.mp hnd).1 hv)
      rw [hstep]
      constructor
      · rw [hact, hsp.1]
        simp
      · rw [hlast, hsp.2, List.length_cons]
        push_cast
        omega

/-! ## Resize, invariant and reachable states -/

theorem resizeList_length (l : List Int) (n : Nat) :
    (resizeList l n).length = n := by
  unfold resizeList
  split <;> simp <;> omega

theorem resize_first (s : sparse_array_set) (n : Nat) :
    (resize s n).first = s.first := rfl

theorem resize_last (s : sparse_array_set) (n : Nat) :
    (resize s n).last = s.last := rfl

/-- Resizing neither below the active range nor beyond the current
storage leaves the active range untouched. -/
theorem activeList_resize {s : sparse_array_set} {n : Nat}
    (h1 : s.first = 0) (hm : (s.last + 1).toNat ≤ n)
    (hl : (s.last + 1).toNat ≤ s.elements.length) :
    activeList (resize s n) = activeList s := by
  have hf : (resize s n).first = 0 := h1
  rw [activeList_of_first_zero hf, activeList_of_first_zero h1]
  show (resizeList s.elements n).take (s.last + 1).toNat = _
  unfold resizeList
  split
  · rw [List.take_take]
    congr 1
    omega
  · exact List.take_append_of_le_length hl

/-- The well-formedness invariant maintained by every operation:
`first` pinned at `0` (spec §3), a nonempty-or-empty active range that
fits the backing storage (I1), and pairwise-distinct active values (I2). -/
def Inv (s : sparse_array_set) : Prop :=
  s.first = 0 ∧ -1 ≤ s.last ∧ s.last + 1 ≤ (s.elements.length : Int) ∧
  (activeList s).Nodup

theorem contains_last_nonneg {s : sparse_array_set} {x : Int}
    (h1 : s.first = 0) (hx : contains s x = true) : 0 ≤ s.last := by
  have hmem := contains_iff.mp hx
  by_contra hcon
  rw [activeList_of_first_zero h1,
      show (s.last + 1).toNat = 0 from by omega] at hmem
  simp at hmem

theorem Inv_insert {s : sparse_array_set} {x : Int} (h : Inv s)
    (hcap : contains s x = true ∨ s.last + 1 < (s.elements.length : Int)) :
    Inv (insert s x) := by
  obtain ⟨h1, h2, h3, h4⟩ := h
  cases hc : contains s x with
  | true => rw [insert_of_contains hc]; exact ⟨h1, h2, h3, h4⟩
  | false =>
      have hcap2 : s.last + 1 < (s.elements.length : Int) := by
        rcases hcap with hcap | hcap
        · rw [hc] at hcap; cases hcap
        · exact hcap
      have hsp := insert_spec h1 h2 hcap2 hc
      refine ⟨by rw [insert_first]; exact h1, ?_, ?_, ?_⟩
      · rw [hsp.2]; omega
      · rw [hsp.2, insert_length]; omega
      · rw [hsp.1]
        simp [List.nodup_append]
        exact ⟨h4, fun hmem => contains_false_iff.mp hc hmem⟩

theorem Inv_remove {s : sparse_array_set} {x : Int} (h : Inv s) :
    Inv (remove s x) := by
  obtain ⟨h1, h2, h3, h4⟩ := h
  cases hc : contains s x with
  | false => rw [remove_of_not_contains hc]; exact ⟨h1, h2, h3, h4⟩
  | true =>
      have hlast := contains_last_nonneg h1 hc
      have hsp := remove_spec h1 h3 hc
      refine ⟨hsp.1, ?_, ?_, remove_nodup h1 h3 h4⟩
      · rw [hsp.2.1]; omega
      · rw [hsp.2.1, hsp.2.2.1]; omega

theorem Inv_clear (s : sparse_array_set) : Inv (clear s) := by
  refine ⟨rfl, by simp [clear], by simp [clear], ?_⟩
  have : activeList (clear s) = [] := by
    simp [activeList, clear]
  rw [this]
  exact List.nodup_nil

theorem Inv_create (c : Nat) : Inv (create c) := by
  refine ⟨rfl, by simp [create], by simp [create], ?_⟩
  have : activeList (create c) = [] := by
    simp [activeList, create]
  rw [this]
  exact List.nodup_nil

theorem Inv_init (s : sparse_array_set) (c : Nat) : Inv (init s c) := by
  refine ⟨rfl, by simp [init], ?_, ?_⟩
  · show (-1 : Int) + 1 ≤ ((resizeList s.elements c).length : Int)
    rw [resizeList_length]
    omega
  · have : activeList (init s c) = [] := by
      simp [activeList, init]
    rw [this]
    exact List.nodup_nil

/-- States reachable from a fresh set by the mutating interface, every
insertion performed within capacity (or absorbed by the duplicate
check). -/
inductive Reachable : sparse_array_set → Prop where
  | create (c : Nat) : Reachable (create c)
  | createDefault : Reachable createDefault
  | init (s : sparse_array_set) (c : Nat) : Reachable s → Reachable (init s c)
  | insert (s : sparse_array_set) (x : Int) : Reachable s →
      (contains s x = true ∨ s.last + 1 < (s.elements.length : Int)) →
      Reachable (insert s x)
  | remove (s : sparse_array_set) (x : Int) : Reachable s →
      Reachable (remove s x)
  | clear (s : sparse_array_set) : Reachable s → Reachable (clear s)
  | moveSrc (s t : sparse_array_set) (x : Int) : Reachable s →
      Reachable (move_to s x t).1
  | moveDst (s t : sparse_array_set) (x : Int) : Reachable t →
      (contains t x = true ∨ t.last + 1 < (t.elements.length : Int)) →
      Reachable (move_to s x t).2

theorem reachable_inv {s : sparse_array_set} (h : Reachable s) : Inv s := by
  induction h with
  | create c => exact Inv_create c
  | createDefault => exact Inv_create 0
  | init s c hs ih => exact Inv_init s c
  | insert s x hs hcap ih => exact Inv_insert ih hcap
  | remove s x hs ih => exact Inv_remove ih
  | clear s hs ih => exact Inv_clear s
  | moveSrc s t x hs ih => exact Inv_remove ih
  | moveDst s t x ht hcap ih => exact Inv_insert ih hcap

/-! ## Claim theorems -/

theorem activeList_create (c : Nat) : activeList (create c) = [] := by
  simp [activeList, create]

/-- C1: inserting a sequence of pairwise-distinct values (no more than
the capacity) into a freshly created set makes `contains` true for each
of them and `size` equal to their number. -/
theorem claim_C1_round_trip (c : Nat) (vs : List Int)
    (hnd : vs.Nodup) (hle : vs.length ≤ c) :
    (∀ v ∈ vs, contains (insertAll (create c) vs) v = true) ∧
    size (insertAll (create c) vs) = vs.length := by
  have h1 : (create c).first = 0 := rfl
  have h2 : (-1 : Int) ≤ (create c).last := by simp [create]
  have h3 : (create c).last + 1 + vs.length ≤
      ((create c).elements.length : Int) := by
    simp [create]
    exact_mod_cast hle
  have hfresh : ∀ v ∈ vs, contains (create c) v = false := by
    intro v hv
    rw [contains_false_iff, activeList_create]
    simp
  obtain ⟨hact, hlast⟩ := insertAll_fresh vs (create c) h1 h2 h3 hnd hfresh
  constructor
  · intro v hv
    rw [contains_iff, hact, activeList_create]
    simpa using hv
  · rw [size, insertAll_first, hlast]
    show ((create c).last + vs.length - (create c).first + 1).toNat = vs.length
    simp [create]

/-- C2: moving `x` from a set `A` that contains it to a set `B` that
does not and has spare capacity removes it from `A`, adds it to `B`,
and shifts one unit of size from `A` to `B`. -/
theorem claim_C2_move_semantics (A B : sparse_array_set) (x : Int)
    (hA1 : A.first = 0) (hA2 : A.last + 1 ≤ (A.elements.length : Int))
    (hAnd : (activeList A).Nodup) (hAx : contains A x = true)
    (hB1 : B.first = 0) (hB2 : -1 ≤ B.last)
    (hB3 : B.last + 1 < (B.elements.length : Int))
    (hBx : contains B x = false) :
    contains (move_to A x B).1 x = false ∧
    contains (move_to A x B).2 x = true ∧
    size (move_to A x B).1 + 1 = size A ∧
    size (move_to A x B).2 = size B + 1 := by
  refine ⟨remove_not_contains hA1 hA2 hAnd hAx,
    insert_contains_self hB1 hB2 hB3,
    remove_size hA1 hA2 hAx, ?_⟩
  have hsp := insert_spec hB1 hB2 hB3 hBx
  show size (insert B x) = size B + 1
  rw [size, size, hsp.2, insert_first, hB1]
  omega

/-- C3: for every set (full sets included) and every already-contained
value, `insert` is a complete structural no-op — the `contains` guard
returns before any write; and a double insert (the first performed
within capacity, or absorbed by the guard) leaves the state of the
first insert: same size, still contained. -/
theorem claim_C3_insert_idempotent (s : sparse_array_set) (x : Int)
    (h1 : s.first = 0) (h2 : -1 ≤ s.last)
    (hcap : contains s x = true ∨ s.last + 1 < (s.elements.length : Int)) :
    (∀ (t : sparse_array_set) (y : Int), contains t y = true →
      insert t y = t) ∧
    contains (insert s x) x = true ∧
    insert (insert s x) x = insert s x ∧
    size (insert (insert s x) x) = size (insert s x) := by
  have hcs : contains (insert s x) x = true := by
    rcases hcap with hc | hc
    · rw [insert_of_contains hc]
      exact hc
    · exact insert_contains_self h1 h2 hc
  have hident : insert (insert s x) x = insert s x :=
    insert_of_contains hcs
  exact ⟨fun t y h => insert_of_contains h, hcs, hident, by rw [hident]⟩

/-- C4: `remove` of a value that is not contained leaves the whole
state (hence size and membership) unchanged. -/
theorem claim_C4_remove_absent (s : sparse_array_set) (x : Int)
    (hx : contains s x = false) :
    remove s x = s ∧ size (remove s x) = size s ∧
    ∀ v, contains (remove s x) v = contains s v := by
  have h := remove_of_not_contains hx
  exact ⟨h, by rw [h], fun v => by rw [h]⟩

/-- C5: invariant I2 — in every state reachable by
create/init/insert/remove/move_to/clear performed within capacity, the
values in the active range are pairwise distinct. -/
theorem claim_C5_invariant_I2 (s : sparse_array_set) (h : Reachable s) :
    (activeList s).Nodup :=
  (reachable_inv h).2.2.2

/-- C6: `clear` resets the cursors to `first = 0`, `last = -1` (size 0)
without touching any backing slot, and a subsequent insert succeeds and
reflects only the post-clear insertion. -/
theorem claim_C6_clear (s : sparse_array_set) (x : Int)
    (hcap : 0 < s.elements.length) :
    (clear s).elements = s.elements ∧ (clear s).first = 0 ∧
    (clear s).last = -1 ∧ size (clear s) = 0 ∧
    activeList (insert (clear s) x) = [x] ∧
    size (insert (clear s) x) = 1 := by
  have hc1 : (clear s).first = 0 := rfl
  have hc2 : (-1 : Int) ≤ (clear s).last := by simp [clear]
  have hc3 : (clear s).last + 1 < ((clear s).elements.length : Int) := by
    show (-1 : Int) + 1 < (s.elements.length : Int)
    push_cast
    omega
  have hcx : contains (clear s) x = false := by
    rw [contains_false_iff]
    simp [activeList, clear]
  have hsp := insert_spec hc1 hc2 hc3 hcx
  refine ⟨rfl, rfl, rfl, rfl, ?_, ?_⟩
  · rw [hsp.1]
    simp [activeList, clear]
  · rw [size, hsp.2, insert_first]
    rfl

/-- C7 as stated is false on the code: with the spec's example
adjacency `{0: [1,2,3], 1: [0]}` the set is resized to
`adjacency.size() = 2`, so inserting the third neighbor of node 0
overruns the backing storage (undefined behaviour in C++, a dropped
write in the embedding): the resulting set does not contain `3`. -/
theorem claim_C7_counterexample :
    contains (init_from_adj createDefault [[1, 2, 3], [0]] 0) 3 = false := by
  decide

/-- C7 amended: `initializeFromAdjacency` resizes to `adjacency.size()`
and inserts the neighbors of `node` in iteration order; on an adjacency
large enough for its own neighbor lists — e.g.
`{0: [1,2,3], 1: [0], 2: [], 3: []}` — the resulting set has size 3 and
contains exactly the values 1, 2 and 3. -/
theorem claim_C7_init_from_adj :
    (∀ (s : sparse_array_set) (adj : List (List Int)) (node : Nat),
      init_from_adj s adj node =
        insertAll (resize s adj.length) (adj.getD node [])) ∧
    size (init_from_adj createDefault [[1, 2, 3], [0], [], []] 0) = 3 ∧
    ∀ v, contains (init_from_adj createDefault [[1, 2, 3], [0], [], []] 0) v
        = true ↔ (v = 1 ∨ v = 2 ∨ v = 3) := by
  refine ⟨fun s adj node => rfl, by decide, ?_⟩
  intro v
  have hact : activeList (init_from_adj createDefault
      [[1, 2, 3], [0], [], []] 0) = [1, 2, 3] := by decide
  rw [contains_iff, hact]
  simp

/-- C8: for every capacity, a freshly constructed (`create`) or
re-initialized (`init`) set has size 0 and is empty. -/
theorem claim_C8_fresh_empty (c : Nat) (s : sparse_array_set) :
    size (create c) = 0 ∧ empty (create c) = true ∧
    size (init s c) = 0 ∧ empty (init s c) = true :=
  ⟨rfl, rfl, rfl, rfl⟩

/-- C9: `init_from_adj` does not reset the cursors, so prior members
survive it; with `node` present in the adjacency and capacity
sufficient, the final membership is the union of the prior members and
the neighbors of `node`. -/
theorem claim_C9_init_from_adj_preserves (s : sparse_array_set)
    (adj : List (List Int)) (node : Nat)
    (h1 : s.first = 0) (h2 : -1 ≤ s.last) (hnode : node < adj.length)
    (hkeep : s.last + 1 ≤ (s.elements.length : Int))
    (hcap : s.last + 1 + ((adj.getD node []).length : Int) ≤
      (adj.length : Int)) :
    (init_from_adj s adj node).first = s.first ∧
    (∀ v, contains s v = true → contains (init_from_adj s adj node) v = true) ∧
    (∀ v, contains (init_from_adj s adj node) v = true ↔
      contains s v = true ∨ v ∈ adj.getD node []) := by
  have hrl : (resize s adj.length).elements.length = adj.length :=
    resizeList_length s.elements adj.length
  have hr1 : (resize s adj.length).first = 0 := h1
  have hr2 : -1 ≤ (resize s adj.length).last := h2
  have hract : activeList (resize s adj.length) = activeList s :=
    activeList_resize h1 (by omega) (by omega)
  have hrcap : (resize s adj.length).last + 1 +
      ((adj.getD node []).length : Int) ≤
      ((resize s adj.length).elements.length : Int) := by
    rw [hrl]
    exact hcap
  obtain ⟨hl, h2a, h3a, hmem, hnd⟩ :=
    insertAll_spec (adj.getD node []) (resize s adj.length) hr1 hr2
      (by exact_mod_cast hrcap)
  have hfst : (init_from_adj s adj node).first = s.first := by
    show (insertAll (resize s adj.length) (adj.getD node [])).first = s.first
    rw [insertAll_first]
    rfl
  refine ⟨hfst, ?_, ?_⟩
  · intro v hv
    rw [contains_iff]
    rw [show init_from_adj s adj node =
      insertAll (resize s adj.length) (adj.getD node []) from rfl]
    rw [hmem v, hract]
    exact Or.inl (contains_iff.mp hv)
  · intro v
    rw [contains_iff]
    rw [show init_from_adj s adj node =
      insertAll (resize s adj.length) (adj.getD node []) from rfl]
    rw [hmem v, hract, ← contains_iff]

/-- C10: removing a contained value `x` found at physical index `j`
(the first match) overwrites slot `j` with the value from the old last
slot, parks `x` in the old last slot (just past the new active range),
leaves every other backing slot untouched, and the old active multiset
equals the new one plus `x`. -/
theorem claim_C10_remove_swap (s : sparse_array_set) (x : Int)
    (h1 : s.first = 0) (h2 : s.last + 1 ≤ (s.elements.length : Int))
    (hx : contains s x = true) :
    s.elements.getD ((activeList s).indexOf x) (-1) = x ∧
    (remove s x).elements.getD ((activeList s).indexOf x) (-1) =
      s.elements.getD s.last.toNat (-1) ∧
    (remove s x).elements.getD s.last.toNat (-1) = x ∧
    (∀ m, m ≠ (activeList s).indexOf x → m ≠ s.last.toNat →
      (remove s x).elements.getD m (-1) = s.elements.getD m (-1)) ∧
    (remove s x).last = s.last - 1 ∧
    List.Perm (activeList s) (x :: activeList (remove s x)) := by
  have hsp := remove_spec h1 h2 hx
  have hmem : x ∈ activeList s := contains_iff.mp hx
  have hlast := contains_last_nonneg h1 hx
  obtain ⟨k, hk⟩ := Int.eq_ofNat_of_zero_le hlast
  have hkN : s.last.toNat = k := by omega
  have hklen : k + 1 ≤ s.elements.length := by omega
  have htn : (s.last + 1).toNat = k + 1 := by omega
  have hlact : (activeList s).length = k + 1 := by
    rw [activeList_of_first_zero h1, htn]
    simp
    omega
  have hjlen : (activeList s).indexOf x < (activeList s).length :=
    List.indexOf_lt_length.2 hmem
  have hjlt : (activeList s).indexOf x < k + 1 := by omega
  set j := (activeList s).indexOf x with hjdef
  have hactj : (activeList s)[j] = x :=
    List.getElem_indexOf hjlen
  have hjE : j < s.elements.length := by omega
  have hjT : j < (s.elements.take (k + 1)).length := by simp; omega
  have hEj : s.elements.getD j (-1) = x := by
    rw [List.getD_eq_getElem _ _ hjE]
    calc s.elements[j]
        = (s.elements.take (k + 1))[j] := by
          rw [List.getElem_take]
      _ = (activeList s)[j] := by
          simp only [activeList_of_first_zero h1, htn]
      _ = x := hactj
  have hrelem : (remove s x).elements =
      (s.elements.set j (s.elements.getD k (-1))).set k x := by
    simp [remove, hx, h1, hkN]
  have hlen2 : (remove s x).elements.length = s.elements.length := hsp.2.2.1
  have hnewget : ∀ (m : Nat), m < s.elements.length →
      (remove s x).elements.getD m (-1) =
        if k = m then x else if j = m then s.elements.getD k (-1)
          else s.elements.getD m (-1) := by
    intro m hm
    have hmr : m < (remove s x).elements.length := by omega
    have hms : m <
        ((s.elements.set j (s.elements.getD k (-1))).set k x).length := by
      simp; omega
    have hme : (remove s x).elements[m] =
        ((s.elements.set j (s.elements.getD k (-1))).set k x)[m] := by
      simp only [hrelem]
    rcases eq_or_ne k m with hkm | hkm
    · rw [if_pos hkm, List.getD_eq_getElem _ _
          (by omega : m < (remove s x).elements.length), hme,
          List.getElem_set, if_pos hkm]
    · rw [if_neg hkm]
      rcases eq_or_ne j m with hjm | hjm
      · rw [if_pos hjm, List.getD_eq_getElem _ _
            (by omega : m < (remove s x).elements.length), hme,
            List.getElem_set, if_neg hkm, List.getElem_set, if_pos hjm]
      · rw [if_neg hjm, List.getD_eq_getElem _ _
            (by omega : m < (remove s x).elements.length), hme,
            List.getElem_set, if_neg hkm, List.getElem_set, if_neg hjm,
            List.getD_eq_getElem _ _ hm]
  refine ⟨hEj, ?_, ?_, ?_, hsp.2.1, hsp.2.2.2⟩
  · rw [hkN, hnewget j (by omega)]
    rcases eq_or_ne k j with hkj | hkj
    · rw [if_pos hkj, hkj]
      exact hEj.symm
    · rw [if_neg hkj, if_pos rfl]
  · rw [hkN, hnewget k (by omega), if_pos rfl]
  · intro m hmj hmk
    rw [hkN] at hmk
    rcases Nat.lt_or_ge m s.elements.length with hml | hml
    · rw [hnewget m hml, if_neg (Ne.symm hmk), if_neg (Ne.symm hmj)]
    · rw [List.getD_eq_default _ _ (by omega : (remove s x).elements.length ≤ m),
        List.getD_eq_default _ _ hml]

/-! ## Witnesses: the claim theorems applied at concrete inputs -/

/-- C1 witness at capacity 3 and distinct values `[5, 7, 9]`. -/
theorem claim_C1_witness :
    contains (insertAll (create 3) [5, 7, 9]) 7 = true ∧
    size (insertAll (create 3) [5, 7, 9]) = 3 := by
  obtain ⟨h, hs⟩ := claim_C1_round_trip 3 [5, 7, 9] (by decide) (by decide)
  exact ⟨h 7 (by decide), hs⟩

/-- C2 witness: move 5 out of `{5, 7}` (capacity 3) into an empty
capacity-2 set. -/
theorem claim_C2_witness :
    contains (move_to (insertAll (create 3) [5, 7]) 5 (create 2)).1 5 = false ∧
    contains (move_to (insertAll (create 3) [5, 7]) 5 (create 2)).2 5 = true ∧
    size (move_to (insertAll (create 3) [5, 7]) 5 (create 2)).1 + 1 =
      size (insertAll (create 3) [5, 7]) ∧
    size (move_to (insertAll (create 3) [5, 7]) 5 (create 2)).2 =
      size (create 2) + 1 :=
  claim_C2_move_semantics (insertAll (create 3) [5, 7]) (create 2) 5
    (by decide) (by decide) (by decide) (by decide)
    (by decide) (by decide) (by decide) (by decide)

/-- C3 witness: double insert of 4 into the full set `{4}` of
capacity 1 — the guard alone makes both inserts no-ops. -/
theorem claim_C3_witness :
    insert (insertAll (create 1) [4]) 4 = insertAll (create 1) [4] ∧
    contains (insert (insertAll (create 1) [4]) 4) 4 = true ∧
    insert (insert (insertAll (create 1) [4]) 4) 4 =
      insert (insertAll (create 1) [4]) 4 ∧
    size (insert (insert (insertAll (create 1) [4]) 4) 4) =
      size (insert (insertAll (create 1) [4]) 4) := by
  obtain ⟨ha, hb, hc, hd⟩ :=
    claim_C3_insert_idempotent (insertAll (create 1) [4]) 4
      (by decide) (by decide) (Or.inl (by decide))
  exact ⟨ha (insertAll (create 1) [4]) 4 (by decide), hb, hc, hd⟩

/-- C4 witness: removing the absent value 9 from `{4}`. -/
theorem claim_C4_witness :
    remove (insertAll (create 2) [4]) 9 = insertAll (create 2) [4] ∧
    size (remove (insertAll (create 2) [4]) 9) =
      size (insertAll (create 2) [4]) ∧
    contains (remove (insertAll (create 2) [4]) 9) 4 =
      contains (insertAll (create 2) [4]) 4 := by
  obtain ⟨ha, hb, hc⟩ :=
    claim_C4_remove_absent (insertAll (create 2) [4]) 9 (by decide)
  exact ⟨ha, hb, hc 4⟩

/-- C5 witness: the state reached by inserting 5 into a fresh
capacity-2 set has a duplicate-free active range. -/
theorem claim_C5_witness :
    (activeList (insert (create 2) 5)).Nodup :=
  claim_C5_invariant_I2 (insert (create 2) 5)
    (Reachable.insert (create 2) 5 (Reachable.create 2) (Or.inr (by decide)))

/-- C6 witness: clearing `{3}` (capacity 2) and then inserting 6. -/
theorem claim_C6_witness :
    (clear (insertAll (create 2) [3])).elements =
      (insertAll (create 2) [3]).elements ∧
    (clear (insertAll (create 2) [3])).first = 0 ∧
    (clear (insertAll (create 2) [3])).last = -1 ∧
    size (clear (insertAll (create 2) [3])) = 0 ∧
    activeList (insert (clear (insertAll (create 2) [3])) 6) = [6] ∧
    size (insert (clear (insertAll (create 2) [3])) 6) = 1 :=
  claim_C6_clear (insertAll (create 2) [3]) 6 (by decide)

/-- C9 witness: `{9}` (capacity 5) bulk-extended from the adjacency
`{0: [1,2], 1: [0], 2: []}` at node 0 keeps 9 and gains 1 and 2. -/
theorem claim_C9_witness :
    (init_from_adj (insertAll (create 5) [9]) [[1, 2], [0], []] 0).first =
      (insertAll (create 5) [9]).first ∧
    contains (init_from_adj (insertAll (create 5) [9]) [[1, 2], [0], []] 0) 9
      = true ∧
    (contains (init_from_adj (insertAll (create 5) [9]) [[1, 2], [0], []] 0) 2
        = true ↔
      contains (insertAll (create 5) [9]) 2 = true ∨
      (2 : Int) ∈ [[1, 2], [0], []].getD 0 []) := by
  obtain ⟨ha, hb, hc⟩ :=
    claim_C9_init_from_adj_preserves (insertAll (create 5) [9])
      [[1, 2], [0], []] 0 (by decide) (by decide) (by decide) (by decide)
      (by decide)
  exact ⟨ha, hb 9 (by decide), hc 2⟩

/-- C10 witness: removing 5 from `{5, 7, 9}` (capacity 4) swaps 9 into
slot 0, parks 5 in slot 2 and leaves slot 1 untouched. -/
theorem claim_C10_witness :
    (insertAll (create 4) [5, 7, 9]).elements.getD
      ((activeList (insertAll (create 4) [5, 7, 9])).indexOf 5) (-1) = 5 ∧
    (remove (insertAll (create 4) [5, 7, 9]) 5).elements.getD
      ((activeList (insertAll (create 4) [5, 7, 9])).indexOf 5) (-1) =
      (insertAll (create 4) [5, 7, 9]).elements.getD
        (insertAll (create 4) [5, 7, 9]).last.toNat (-1) ∧
    (remove (insertAll (create 4) [5, 7, 9]) 5).elements.getD
      (insertAll (create 4) [5, 7, 9]).last.toNat (-1) = 5 ∧
    (remove (insertAll (create 4) [5, 7, 9]) 5).elements.getD 1 (-1) =
      (insertAll (create 4) [5, 7, 9]).elements.getD 1 (-1) ∧
    (remove (insertAll (create 4) [5, 7, 9]) 5).last =
      (insertAll (create 4) [5, 7, 9]).last - 1 ∧
    List.Perm (activeList (insertAll (create 4) [5, 7, 9]))
      (5 :: activeList (remove (insertAll (create 4) [5, 7, 9]) 5)) := by
  obtain ⟨ha, hb, hc, hd, he, hf⟩ :=
    claim_C10_remove_swap (insertAll (create 4) [5, 7, 9]) 5
      (by decide) (by decide) (by decide)
  exact ⟨ha, hb, hc, hd 1 (by decide) (by decide), he, hf⟩

end sparse_array_set
